import Mathlib

/-!
Verification development for the ClapperLabs dustpan repository.

The repository documents an editing-orchestration pipeline (ServerSupervisor,
DraftClient, PlanGenerator, PlanExecutor, Orchestrator) whose implementation is
not shipped in the repository itself — only its HTTP contract, data formats and
control flow are documented (SETUP.md, README.md) — together with a Next.js
front end (`v0-app/`) whose page components are shipped as source.

The pipeline layer is therefore modelled from the specification's words, while
the front-end functions (`handleFile`, `filteredProjects`, `handleSendMessage`)
are shallow embeddings of the TypeScript source, with JavaScript strings
embedded as `List Char`.
-/

namespace Clapperlabs

/-! ## Core data model (modelled from the spec) -/

/-- Modelled from the spec: a time window of an edit operation, in seconds.
Times are integers so that validation can observe negative values. -/
structure TimeWindow where
  tStart : Int
  tEnd : Int
deriving DecidableEq, Repr

/-- Modelled from the spec: the closed set of tagged edit-operation variants of
an EditingPlan — video-cut segments and the five overlay kinds
(text, audio, subtitle, effect, sticker). -/
inductive EditOperation where
  | videoCut (win : TimeWindow)
  | textOverlay (content : String) (win : TimeWindow)
  | audioTrack (source : String) (win : TimeWindow) (volume : Int)
  | subtitleCue (content : String) (win : TimeWindow)
  | effect (kind : String) (win : TimeWindow)
  | sticker (asset : String) (win : TimeWindow)
deriving DecidableEq, Repr

/-- The time window carried by an edit operation. -/
def EditOperation.window : EditOperation → TimeWindow
  | .videoCut w => w
  | .textOverlay _ w => w
  | .audioTrack _ w _ => w
  | .subtitleCue _ w => w
  | .effect _ w => w
  | .sticker _ w => w

/-- Whether an operation is a video-cut segment (as opposed to an overlay). -/
def EditOperation.isVideoCut : EditOperation → Bool
  | .videoCut _ => true
  | _ => false

/-- Modelled from the spec: immutable description of a source video file. -/
structure VideoAsset where
  path : String
  duration : Int
  width : Nat
  height : Nat
deriving DecidableEq, Repr

/-- Positions (plan indices) of the video-cut operations, in declared order. -/
def cutIdxs (plan : List EditOperation) : List Nat :=
  (plan.enum.filter fun p => p.2.isVideoCut).map Prod.fst

/-- Positions (plan indices) of the overlay operations, in declared order. -/
def overlayIdxs (plan : List EditOperation) : List Nat :=
  (plan.enum.filter fun p => !p.2.isVideoCut).map Prod.fst

/-! ## PlanGenerator validation (modelled from the spec) -/

/-- Modelled from the spec: the named invariant violations reported by
PlanGenerator validation as `PlanInvalid`. -/
inductive PlanInvalid where
  | emptyCutList
  | negativeDuration (index : Nat)
  | outOfRange (index : Nat)
deriving DecidableEq, Repr

/-- Modelled from the spec: per-operation window checks — a negative duration
(`tEnd < tStart`) or an out-of-range window (below zero or beyond the asset
duration) is reported with the offending operation's index. -/
def checkWindows (duration : Int) : List (Nat × EditOperation) → Except PlanInvalid Unit
  | [] => .ok ()
  | (i, op) :: rest =>
    if op.window.tEnd < op.window.tStart then .error (.negativeDuration i)
    else if op.window.tStart < 0 || duration < op.window.tEnd then .error (.outOfRange i)
    else checkWindows duration rest

/-- Modelled from the spec: PlanGenerator validates the parsed plan against the
EditingPlan invariants — at least one video-cut operation, and every window
non-negative and within the asset duration. -/
def validatePlan (asset : VideoAsset) (plan : List EditOperation) : Except PlanInvalid Unit :=
  if (cutIdxs plan).isEmpty then .error .emptyCutList
  else checkWindows asset.duration plan.enum

/-- A single operation satisfies the EditingPlan window invariants. -/
def opWellFormed (duration : Int) (op : EditOperation) : Prop :=
  0 ≤ op.window.tStart ∧ op.window.tStart ≤ op.window.tEnd ∧ op.window.tEnd ≤ duration

instance (duration : Int) (op : EditOperation) : Decidable (opWellFormed duration op) := by
  unfold opWellFormed; infer_instance

/-- The EditingPlan invariants of the spec, stated directly. -/
def planWellFormed (asset : VideoAsset) (plan : List EditOperation) : Prop :=
  cutIdxs plan ≠ [] ∧ ∀ op ∈ plan, opWellFormed asset.duration op

instance (asset : VideoAsset) (plan : List EditOperation) :
    Decidable (planWellFormed asset plan) := by
  unfold planWellFormed; infer_instance

/-! ## DraftClient retry policy (modelled from the spec) -/

/-- Modelled from the spec: the per-call result type of DraftClient —
`acknowledged` (success), `rejected` (parameters refused, fatal to the
operation), `unreachable` and `serverError` (transient). -/
inductive CallResult where
  | acknowledged
  | rejected
  | unreachable
  | serverError
deriving DecidableEq, Repr

/-- Modelled from the spec: per-operation status in the DraftSession. -/
inductive Status where
  | pending
  | sent
  | acknowledged
  | failed
deriving DecidableEq, Repr

/-- Modelled from the spec: the retry loop of one DraftClient operation.
`stub` gives the outcome of each underlying HTTP attempt; `fuel` bounds the
total number of attempts. Returns the terminal status together with the
number of attempts actually made. `rejected` is surfaced immediately;
`unreachable` and `serverError` consume one attempt and retry. -/
def callWithRetry (stub : Nat → CallResult) : Nat → Nat → Status × Nat
  | attempt, 0 => (.failed, attempt)
  | attempt, fuel + 1 =>
    match stub attempt with
    | .acknowledged => (.acknowledged, attempt + 1)
    | .rejected => (.failed, attempt + 1)
    | .unreachable => callWithRetry stub (attempt + 1) fuel
    | .serverError => callWithRetry stub (attempt + 1) fuel

/-- Modelled from the spec: one DraftClient operation executed under the retry
policy with retry cap `retryCap` (the maximal number of attempts). -/
def executeCall (stub : Nat → CallResult) (retryCap : Nat) : Status × Nat :=
  callWithRetry stub 0 retryCap

/-- A stub that returns `serverError` for the first `k` attempts and then
succeeds — the scenario of the spec's retry testable property. -/
def serverErrorStub (k : Nat) : Nat → CallResult :=
  fun attempt => if attempt < k then .serverError else .acknowledged

/-! ## PlanExecutor (modelled from the spec) -/

/-- Modelled from the spec: the observable per-call events of one plan
execution — a call being issued (`sent`), a call reaching its terminal
status (`done`), and the final `saveDraft` call. -/
inductive Event where
  | sent (index : Nat)
  | done (index : Nat) (result : Status)
  | saveDraft
deriving DecidableEq, Repr

/-- Modelled from the spec: the executor's environment — the behaviour of the
underlying server per operation and attempt, the retry cap, and an optional
cancellation signal arriving after `cancelAt` operations have terminated. -/
structure ExecEnv where
  oracle : Nat → Nat → CallResult
  retryCap : Nat
  cancelAt : Option Nat

/-- Terminal status of operation `i` under the retry policy. -/
def opStatus (env : ExecEnv) (i : Nat) : Status :=
  (executeCall (env.oracle i) env.retryCap).1

/-- Whether the cancellation signal has arrived once `terminated` operations
have reached a terminal state. -/
def isCancelled (cancelAt : Option Nat) (terminated : Nat) : Bool :=
  match cancelAt with
  | none => false
  | some n => decide (n ≤ terminated)

/-- The two events one completed operation contributes to the trace. -/
def opTrace (env : ExecEnv) (i : Nat) : List Event :=
  [.sent i, .done i (opStatus env i)]

/-- Modelled from the spec: sequential delivery of the operations at plan
indices `idxs`. Before issuing each new call the executor checks the
cancellation signal; on cancellation no new call is issued and the remaining
operations stay `pending`. Returns the per-operation statuses, the event
trace, and the count of terminated operations. -/
def runOps (env : ExecEnv) : List Nat → Nat → List (Nat × Status) × List Event × Nat
  | [], terminated => ([], [], terminated)
  | i :: rest, terminated =>
    if isCancelled env.cancelAt terminated then
      ((i :: rest).map fun j => (j, Status.pending), [], terminated)
    else
      let r := runOps env rest (terminated + 1)
      ((i, opStatus env i) :: r.1, opTrace env i ++ r.2.1, r.2.2)

/-- Modelled from the spec: the delivery order of a plan — video-cut
operations strictly in declared order, then the overlay operations. -/
def execOrder (plan : List EditOperation) : List Nat :=
  cutIdxs plan ++ overlayIdxs plan

/-- Modelled from the spec: the aggregate outcome of one plan execution. -/
inductive Outcome where
  | completed (warnings : List Nat)
  | planExecutionFailed (failures : List Nat)
  | cancelled
deriving DecidableEq, Repr

/-- Modelled from the spec: the DraftSession record assembled by PlanExecutor —
per-operation statuses, the call trace, and the aggregate outcome. -/
structure ExecResult where
  statuses : List (Nat × Status)
  trace : List Event
  outcome : Outcome
deriving DecidableEq, Repr

/-- The plan indices among `idxs` whose recorded status is `failed`. -/
def failedIn (idxs : List Nat) (sts : List (Nat × Status)) : List Nat :=
  (sts.filter fun p => decide (p.1 ∈ idxs) && decide (p.2 = Status.failed)).map Prod.fst

/-- Modelled from the spec: PlanExecutor — delivers the cuts in declared order
and then the overlays, honours cancellation, and invokes `saveDraft` exactly
once iff no video-cut operation failed; a failed cut skips `saveDraft` and
terminates the session with `PlanExecutionFailed`, while failed overlays are
only listed as partial-failure warnings. -/
def executePlan (env : ExecEnv) (plan : List EditOperation) : ExecResult :=
  let r := runOps env (execOrder plan) 0
  if isCancelled env.cancelAt r.2.2 then
    ⟨r.1, r.2.1, .cancelled⟩
  else
    let fails := failedIn (cutIdxs plan) r.1
    if fails.isEmpty then
      ⟨r.1, r.2.1 ++ [.saveDraft], .completed (failedIn (overlayIdxs plan) r.1)⟩
    else
      ⟨r.1, r.2.1, .planExecutionFailed fails⟩

/-! ## Orchestrator (modelled from the spec) -/

/-- Modelled from the spec: the Orchestrator's result for the planning and
execution stages — an invalid plan is surfaced and never executed. -/
inductive OrchResult where
  | planInvalid (e : PlanInvalid)
  | executed (r : ExecResult)
deriving DecidableEq, Repr

/-- Modelled from the spec: PlanGenerator gates the parsed plan behind
validation; only a validated plan is returned. -/
def generate (asset : VideoAsset) (raw : List EditOperation) :
    Except PlanInvalid (List EditOperation) :=
  match validatePlan asset raw with
  | .ok _ => .ok raw
  | .error e => .error e

/-- Modelled from the spec: the Orchestrator hands a plan to PlanExecutor only
when PlanGenerator validation succeeded. -/
def orchestrate (env : ExecEnv) (asset : VideoAsset) (raw : List EditOperation) : OrchResult :=
  match generate asset raw with
  | .error e => .planInvalid e
  | .ok plan => .executed (executePlan env plan)

/-! ## ServerSupervisor (modelled from the spec) -/

/-- Modelled from the spec: supervision outcome of the server lifecycle. -/
inductive SupervisorOutcome where
  | healthy
  | serverUnavailable
deriving DecidableEq, Repr

/-- Modelled from the spec: the health-poll loop — probes the liveness
endpoint starting at probe index `attempt`, with at most `fuel` attempts,
stopping early on the first healthy answer. Returns whether a healthy answer
was observed and how many attempts were made. -/
def pollHealth (probe : Nat → Bool) : Nat → Nat → Bool × Nat
  | _, 0 => (false, 0)
  | attempt, fuel + 1 =>
    if probe attempt then (true, 1)
    else
      let r := pollHealth probe (attempt + 1) fuel
      (r.1, r.2 + 1)

/-- Modelled from the spec: ServerSupervisor monitoring — if the bounded
health poll fails, one bounded restart attempt is made and the poll repeated;
if that also fails, `serverUnavailable` is surfaced. The second component is
the number of restarts attempted. -/
def monitor (probe : Nat → Bool) (maxAttempts : Nat) : SupervisorOutcome × Nat :=
  let first := pollHealth probe 0 maxAttempts
  if first.1 then (.healthy, 0)
  else
    let second := pollHealth probe first.2 maxAttempts
    if second.1 then (.healthy, 1)
    else (.serverUnavailable, 1)

/-! ## DraftClient wire format (modelled from the spec and SETUP.md) -/

/-- A JSON-like field value of a draft-authoring request. -/
inductive FieldVal where
  | str (value : String)
  | num (value : Int)
deriving DecidableEq, Repr

/-- Modelled from the spec: the body of a `POST /add_video` request — exactly
the required fields `video_url`, `start`, `end`, `width`, `height`, with the
source path carried under `video_url`. -/
def addVideoRequest (asset : VideoAsset) (w : TimeWindow) : List (String × FieldVal) :=
  [("video_url", .str asset.path),
   ("start", .num w.tStart),
   ("end", .num w.tEnd),
   ("width", .num (asset.width : Int)),
   ("height", .num (asset.height : Int))]

/-- Modelled from the spec: translation of one edit operation into the
endpoint and body of the corresponding draft-authoring HTTP call. -/
def encodeCall (asset : VideoAsset) : EditOperation → String × List (String × FieldVal)
  | .videoCut w => ("/add_video", addVideoRequest asset w)
  | .textOverlay content w =>
      ("/add_text", [("text", .str content), ("start", .num w.tStart), ("end", .num w.tEnd)])
  | .audioTrack source w volume =>
      ("/add_audio", [("audio_url", .str source), ("start", .num w.tStart),
                      ("end", .num w.tEnd), ("volume", .num volume)])
  | .subtitleCue content w =>
      ("/add_subtitle", [("text", .str content), ("start", .num w.tStart),
                         ("end", .num w.tEnd)])
  | .effect kind w =>
      ("/add_effect", [("effect_type", .str kind), ("start", .num w.tStart),
                       ("end", .num w.tEnd)])
  | .sticker asset w =>
      ("/add_sticker", [("sticker_id", .str asset), ("start", .num w.tStart),
                        ("end", .num w.tEnd)])

/-! ## v0-app front end (embedded from the TypeScript source)

JavaScript strings are embedded as `List Char`; `toLowerCase`, `includes`,
`startsWith` and `trim` model the corresponding `String.prototype` methods
on that representation. -/

/-- A JavaScript string, embedded as its character sequence. -/
abbrev JSString := List Char

/-- `String.prototype.toLowerCase`, per-character lowering. -/
def toLowerCase (s : JSString) : JSString := s.map Char.toLower

/-- `String.prototype.startsWith`. -/
def startsWith (s target : JSString) : Bool := target.isPrefixOf s

/-- `String.prototype.includes`: some suffix of `s` starts with `target`. -/
def includes (s target : JSString) : Bool :=
  (List.range (s.length + 1)).any fun i => target.isPrefixOf (s.drop i)

/-- Whitespace characters removed by `String.prototype.trim` (the common
ASCII subset). -/
def trimChar (c : Char) : Bool := c == ' ' || c == '\t' || c == '\n' || c == '\r'

/-- `String.prototype.trim`: strip whitespace from both ends. -/
def trim (s : JSString) : JSString :=
  ((s.dropWhile trimChar).reverse.dropWhile trimChar).reverse

/-- A project entry of the dashboard page (`mockProjects` shape). -/
structure Project where
  id : Nat
  name : JSString
  type : JSString
  thumbnail : JSString
  lastEdited : JSString
  status : JSString
deriving DecidableEq, Repr

/-- Embedded from `v0-app/app/dashboard/page.tsx`: the projects whose name
contains the search query as a case-insensitive substring. -/
def filteredProjects (projects : List Project) (searchQuery : JSString) : List Project :=
  projects.filter fun project => includes (toLowerCase project.name) (toLowerCase searchQuery)

/-- A `File` as seen by the upload page: name, MIME type, size in bytes. -/
structure FileDesc where
  name : JSString
  type : JSString
  size : Nat
deriving DecidableEq, Repr

/-- The two state cells of the upload page touched by `handleFile`. -/
structure UploadState where
  selectedFile : Option FileDesc
  previewUrl : Option JSString
deriving DecidableEq, Repr

/-- Embedded from `v0-app/app/editor/page.tsx` (UploadPage): accept the file
and set the preview URL when its MIME type starts with `image/` or `video/`;
otherwise leave the state untouched. `createObjectURL` stands for the opaque
browser API `URL.createObjectURL`. -/
def handleFile (createObjectURL : FileDesc → JSString) (file : FileDesc)
    (st : UploadState) : UploadState :=
  if startsWith file.type "image/".toList || startsWith file.type "video/".toList then
    { selectedFile := some file, previewUrl := some (createObjectURL file) }
  else st

/-- The role tag of a chat message on the editor page. -/
inductive MsgType where
  | system
  | user
  | assistant
deriving DecidableEq, Repr

/-- One chat-history entry on the editor page. -/
structure ChatMsg where
  type : MsgType
  content : JSString
deriving DecidableEq, Repr

/-- The immediate assistant reply appended by `handleSendMessage`. -/
def processingReply : JSString :=
  "Great! I\x27ll apply those changes to your image. Processing...".toList

/-- The assistant reply delivered by the simulated-processing timeout. -/
def doneReply : JSString :=
  ("Done! I\x27ve enhanced the saturation and added a warm vintage feel to your image."
    ++ " How does it look?").toList

/-- The state cells of the editor page touched by `handleSendMessage`:
the input value, the chat history, and the history payloads scheduled by
`setTimeout` and not yet delivered. -/
structure EditorState where
  message : JSString
  chatHistory : List ChatMsg
  pendingTimeouts : List (List ChatMsg)
deriving DecidableEq, Repr

/-- Embedded from `v0-app/app/editor/page.tsx` (EditorPage): on an empty or
whitespace-only input, return with no state change; otherwise append the user
message and the immediate assistant reply, clear the input, and schedule the
delayed history update captured by the `setTimeout` callback. -/
def handleSendMessage (st : EditorState) : EditorState :=
  if (trim st.message).isEmpty then st
  else
    let newHistory := st.chatHistory ++ [⟨.user, st.message⟩, ⟨.assistant, processingReply⟩]
    { message := [],
      chatHistory := newHistory,
      pendingTimeouts := st.pendingTimeouts ++ [newHistory ++ [⟨.assistant, doneReply⟩]] }

/-- Delivery of the oldest scheduled `setTimeout` callback: the captured
payload replaces the chat history (the callback calls `setChatHistory` with
the list it closed over). -/
def fireTimeout (st : EditorState) : EditorState :=
  match st.pendingTimeouts with
  | [] => st
  | payload :: rest => { st with chatHistory := payload, pendingTimeouts := rest }

/-! ## Supporting lemmas: retry policy -/

/-- The retry loop only ever reports `acknowledged` or `failed`. -/
theorem callWithRetry_terminal (stub : Nat → CallResult) :
    ∀ (fuel attempt : Nat),
      (callWithRetry stub attempt fuel).1 = Status.acknowledged ∨
      (callWithRetry stub attempt fuel).1 = Status.failed
  | 0, _ => Or.inr rfl
  | fuel + 1, attempt => by
    rw [callWithRetry]
    cases stub attempt with
    | acknowledged => exact Or.inl rfl
    | rejected => exact Or.inr rfl
    | unreachable => exact callWithRetry_terminal stub fuel (attempt + 1)
    | serverError => exact callWithRetry_terminal stub fuel (attempt + 1)

/-- The retry loop makes at most `fuel` further attempts. -/
theorem callWithRetry_attempts_le (stub : Nat → CallResult) :
    ∀ (fuel attempt : Nat), (callWithRetry stub attempt fuel).2 ≤ attempt + fuel
  | 0, attempt => Nat.le_refl _
  | fuel + 1, attempt => by
    rw [callWithRetry]
    cases stub attempt with
    | acknowledged =>
        show attempt + 1 ≤ attempt + (fuel + 1)
        omega
    | rejected =>
        show attempt + 1 ≤ attempt + (fuel + 1)
        omega
    | unreachable =>
        show (callWithRetry stub (attempt + 1) fuel).2 ≤ attempt + (fuel + 1)
        have := callWithRetry_attempts_le stub fuel (attempt + 1)
        omega
    | serverError =>
        show (callWithRetry stub (attempt + 1) fuel).2 ≤ attempt + (fuel + 1)
        have := callWithRetry_attempts_le stub fuel (attempt + 1)
        omega

/-- Outcome of the retry loop against the `serverErrorStub`: acknowledged
exactly when the first success lands within the remaining fuel. -/
theorem callWithRetry_serverErrorStub (k : Nat) :
    ∀ (fuel attempt : Nat), attempt ≤ k →
      ((callWithRetry (serverErrorStub k) attempt fuel).1 = Status.acknowledged ↔
        k < attempt + fuel)
  | 0, attempt, h => by
    show Status.failed = Status.acknowledged ↔ k < attempt + 0
    constructor
    · intro hc; exact Status.noConfusion hc
    · intro hc; exact absurd hc (by omega)
  | fuel + 1, attempt, h => by
    rw [callWithRetry]
    by_cases hak : attempt < k
    · have hs : serverErrorStub k attempt = CallResult.serverError := by
        simp [serverErrorStub, hak]
      rw [hs]
      show (callWithRetry (serverErrorStub k) (attempt + 1) fuel).1 = Status.acknowledged ↔
        k < attempt + (fuel + 1)
      rw [callWithRetry_serverErrorStub k fuel (attempt + 1) hak]
      omega
    · have hs : serverErrorStub k attempt = CallResult.acknowledged := by
        simp [serverErrorStub, hak]
      rw [hs]
      show Status.acknowledged = Status.acknowledged ↔ k < attempt + (fuel + 1)
      constructor
      · intro _; omega
      · intro _; rfl

/-- C3: a `Rejected` result is surfaced immediately with a single attempt and
never retried; transient `ServerError` results are retried up to the cap, so a
stub failing with `ServerError` exactly `k` times before succeeding ends
`acknowledged` precisely when `k` is below the cap; and no call ever makes
more attempts than the cap. -/
theorem retry_policy_correct (k cap : Nat) :
    ((executeCall (serverErrorStub k) cap).1 = Status.acknowledged ↔ k < cap) ∧
    (∀ stub : Nat → CallResult, stub 0 = CallResult.rejected → 1 ≤ cap →
      executeCall stub cap = (Status.failed, 1)) ∧
    (∀ stub : Nat → CallResult, (executeCall stub cap).2 ≤ cap) := by
  refine ⟨?_, ?_, ?_⟩
  · have := callWithRetry_serverErrorStub k cap 0 (Nat.zero_le k)
    simpa [executeCall] using this
  · intro stub hstub hcap
    obtain ⟨cap', rfl⟩ : ∃ c, cap = c + 1 := ⟨cap - 1, by omega⟩
    rw [executeCall, callWithRetry, hstub]
  · intro stub
    have := callWithRetry_attempts_le stub cap 0
    simpa [executeCall] using this

/-- Witness for C3 at concrete inputs: two `ServerError` responses are
absorbed by a cap of three attempts, and a rejecting stub stops after one
attempt. -/
theorem retry_policy_correct_witness :
    ((executeCall (serverErrorStub 2) 3).1 = Status.acknowledged) ∧
    executeCall (fun _ => CallResult.rejected) 3 = (Status.failed, 1) :=
  ⟨(retry_policy_correct 2 3).1.mpr (by decide),
   (retry_policy_correct 2 3).2.1 (fun _ => CallResult.rejected) rfl (by decide)⟩

/-! ## Supporting lemmas: server supervision -/

/-- Against a continuously failing probe the health poll exhausts its bound. -/
theorem pollHealth_all_false (probe : Nat → Bool) (h : ∀ n, probe n = false) :
    ∀ (fuel attempt : Nat), pollHealth probe attempt fuel = (false, fuel)
  | 0, _ => rfl
  | fuel + 1, attempt => by
    rw [pollHealth, h attempt]
    simp [pollHealth_all_false probe h fuel (attempt + 1)]

/-- The health poll never makes more attempts than its bound. -/
theorem pollHealth_attempts_le (probe : Nat → Bool) :
    ∀ (fuel attempt : Nat), (pollHealth probe attempt fuel).2 ≤ fuel
  | 0, _ => Nat.le_refl _
  | fuel + 1, attempt => by
    rw [pollHealth]
    by_cases hp : probe attempt
    · simp [hp]
    · have := pollHealth_attempts_le probe fuel (attempt + 1)
      simp only [hp, if_neg, Bool.false_eq_true, not_false_iff]
      simpa using Nat.succ_le_succ this

/-- C5: with a continuously failing liveness probe the supervisor attempts
exactly one restart and surfaces `serverUnavailable`; in general the restart
count never exceeds one, and every health-poll loop terminates within its
attempt bound. -/
theorem supervisor_bounded_restart (probe : Nat → Bool) (maxAttempts : Nat)
    (h : ∀ n, probe n = false) :
    monitor probe maxAttempts = (SupervisorOutcome.serverUnavailable, 1) ∧
    (∀ (p : Nat → Bool) (cap : Nat), (monitor p cap).2 ≤ 1) ∧
    (∀ (p : Nat → Bool) (attempt cap : Nat), (pollHealth p attempt cap).2 ≤ cap) := by
  refine ⟨?_, ?_, ?_⟩
  · rw [monitor]
    rw [pollHealth_all_false probe h maxAttempts 0]
    simp [pollHealth_all_false probe h maxAttempts maxAttempts]
  · intro p cap
    rw [monitor]
    dsimp only
    split
    · exact Nat.zero_le 1
    · split
      · exact Nat.le_refl 1
      · exact Nat.le_refl 1
  · intro p attempt cap
    exact pollHealth_attempts_le p cap attempt

/-- Witness for C5: a probe that always answers unhealthy, with a poll bound
of four attempts. -/
theorem supervisor_bounded_restart_witness :
    monitor (fun _ => false) 4 = (SupervisorOutcome.serverUnavailable, 1) :=
  (supervisor_bounded_restart (fun _ => false) 4 (fun _ => rfl)).1

/-- C6: every add-video request carries exactly the required fields
`video_url`, `start`, `end`, `width`, `height`, the source path travels under
`video_url`, and no generic path field such as `video_path` ever appears. -/
theorem add_video_contract (asset : VideoAsset) (w : TimeWindow) :
    (encodeCall asset (EditOperation.videoCut w)).1 = "/add_video" ∧
    (encodeCall asset (EditOperation.videoCut w)).2.map Prod.fst
      = ["video_url", "start", "end", "width", "height"] ∧
    ("video_url", FieldVal.str asset.path) ∈ (encodeCall asset (EditOperation.videoCut w)).2 ∧
    "video_path" ∉ (encodeCall asset (EditOperation.videoCut w)).2.map Prod.fst := by
  refine ⟨rfl, rfl, ?_, ?_⟩
  · simp [encodeCall, addVideoRequest]
  · simp [encodeCall, addVideoRequest]

/-! ## Supporting definitions and lemmas: plan execution -/

/-- The operation index of a `sent` event. -/
def sentOf : Event → Option Nat
  | .sent i => some i
  | _ => none

/-- Event `a` occurs strictly before event `b` in the trace `tr`. -/
def precedes (a b : Event) (tr : List Event) : Prop :=
  ∃ t1 t2 t3, tr = t1 ++ a :: (t2 ++ b :: t3)

/-- Ordering within a trace is preserved by appending a suffix. -/
theorem precedes_append_right (a b : Event) (tr suffix : List Event)
    (h : precedes a b tr) : precedes a b (tr ++ suffix) := by
  obtain ⟨t1, t2, t3, rfl⟩ := h
  exact ⟨t1, t2, t3 ++ suffix, by simp⟩

/-- A terminal per-operation status is `acknowledged` or `failed`. -/
theorem opStatus_terminal (env : ExecEnv) (i : Nat) :
    opStatus env i = Status.acknowledged ∨ opStatus env i = Status.failed :=
  callWithRetry_terminal (env.oracle i) env.retryCap 0

/-- Without a cancellation signal the executor processes every operation,
recording its terminal status and emitting its two trace events. -/
theorem runOps_none (env : ExecEnv) (h : env.cancelAt = none) :
    ∀ (idxs : List Nat) (t : Nat),
      runOps env idxs t
        = (idxs.map (fun i => (i, opStatus env i)),
           idxs.flatMap (opTrace env),
           t + idxs.length)
  | [], t => by simp [runOps]
  | i :: rest, t => by
    rw [runOps]
    have hc : isCancelled env.cancelAt t = false := by rw [h]; rfl
    rw [hc]
    simp only [Bool.false_eq_true, if_false]
    rw [runOps_none env h rest (t + 1)]
    simp only [List.map_cons, List.flatMap_cons, List.length_cons]
    refine Prod.ext rfl (Prod.ext rfl ?_)
    simp only []
    omega

/-- With a cancellation signal arriving after `n` terminated operations the
executor completes the first `n - t` pending deliveries, leaves the rest
`pending`, and issues no further calls. -/
theorem runOps_cancel (env : ExecEnv) (n : Nat) (h : env.cancelAt = some n) :
    ∀ (idxs : List Nat) (t : Nat), t ≤ n →
      runOps env idxs t
        = ((idxs.take (n - t)).map (fun i => (i, opStatus env i))
             ++ (idxs.drop (n - t)).map (fun j => (j, Status.pending)),
           (idxs.take (n - t)).flatMap (opTrace env),
           t + min (n - t) idxs.length)
  | [], t, ht => by simp [runOps]
  | i :: rest, t, ht => by
    rw [runOps]
    by_cases hc : n ≤ t
    · have htn : t = n := Nat.le_antisymm ht hc
      have hct : isCancelled env.cancelAt t = true := by
        rw [h]; simpa [isCancelled] using hc
      rw [hct]
      simp only [if_true]
      subst htn
      simp [Nat.sub_self]
    · have hlt : t < n := Nat.lt_of_not_le hc
      have hcf : isCancelled env.cancelAt t = false := by
        rw [h]; simpa [isCancelled] using hc
      rw [hcf]
      simp only [Bool.false_eq_true, if_false]
      rw [runOps_cancel env n h rest (t + 1) hlt]
      have hnt : n - t = (n - (t + 1)) + 1 := by omega
      rw [hnt, List.take_succ_cons, List.drop_succ_cons]
      simp only [List.map_cons, List.flatMap_cons, List.length_cons, List.cons_append]
      refine Prod.ext rfl (Prod.ext rfl ?_)
      simp only []
      omega

/-- Shape of one plan execution in the absence of cancellation. -/
theorem executePlan_none (env : ExecEnv) (plan : List EditOperation) (h : env.cancelAt = none) :
    executePlan env plan
      = (let sts := (execOrder plan).map (fun i => (i, opStatus env i))
         let tr := (execOrder plan).flatMap (opTrace env)
         if (failedIn (cutIdxs plan) sts).isEmpty then
           ⟨sts, tr ++ [Event.saveDraft], Outcome.completed (failedIn (overlayIdxs plan) sts)⟩
         else ⟨sts, tr, Outcome.planExecutionFailed (failedIn (cutIdxs plan) sts)⟩) := by
  unfold executePlan
  rw [runOps_none env h]
  have hc : isCancelled env.cancelAt (0 + (execOrder plan).length) = false := by rw [h]; rfl
  simp only [hc, Bool.false_eq_true, if_false]

/-- `saveDraft` never appears among the per-operation events. -/
theorem saveDraft_not_mem_flatMap (env : ExecEnv) (idxs : List Nat) :
    Event.saveDraft ∉ idxs.flatMap (opTrace env) := by
  intro hmem
  rw [List.mem_flatMap] at hmem
  obtain ⟨i, _, hi⟩ := hmem
  simp [opTrace] at hi

/-- `failedIn` is empty exactly when no listed operation failed. -/
theorem failedIn_eq_nil_iff (idxs : List Nat) (sts : List (Nat × Status)) :
    failedIn idxs sts = [] ↔ ∀ p ∈ sts, p.1 ∈ idxs → p.2 ≠ Status.failed := by
  unfold failedIn
  rw [List.map_eq_nil_iff, List.filter_eq_nil_iff]
  simp only [Bool.and_eq_true, decide_eq_true_eq, not_and]

/-- A recorded failure among the listed operations makes `failedIn`
non-empty. -/
theorem failedIn_ne_nil (idxs : List Nat) (sts : List (Nat × Status)) (p : Nat × Status)
    (hp : p ∈ sts) (h1 : p.1 ∈ idxs) (h2 : p.2 = Status.failed) :
    failedIn idxs sts ≠ [] := by
  rw [Ne, failedIn_eq_nil_iff]
  intro hall
  exact (hall p hp h1) h2

/-- All recorded cut statuses are `acknowledged` exactly when no cut is
recorded `failed`. -/
theorem allAcked_iff_failedIn_nil (env : ExecEnv) (plan : List EditOperation) :
    (∀ p ∈ (execOrder plan).map (fun i => (i, opStatus env i)),
        p.1 ∈ cutIdxs plan → p.2 = Status.acknowledged) ↔
      failedIn (cutIdxs plan) ((execOrder plan).map (fun i => (i, opStatus env i))) = [] := by
  rw [failedIn_eq_nil_iff]
  constructor
  · intro hall p hp hpi hpf
    rw [hall p hp hpi] at hpf
    exact Status.noConfusion hpf
  · intro hall p hp hpi
    obtain ⟨i, hi, rfl⟩ := List.mem_map.mp hp
    rcases opStatus_terminal env i with hs | hs
    · exact hs
    · exact absurd hs (hall _ hp hpi)

/-- The execution trace is the per-operation events followed by at most a
final `saveDraft`. -/
theorem executePlan_trace_decomp (env : ExecEnv) (plan : List EditOperation)
    (h : env.cancelAt = none) :
    ∃ tail, (executePlan env plan).trace = (execOrder plan).flatMap (opTrace env) ++ tail ∧
      (tail = [] ∨ tail = [Event.saveDraft]) := by
  rw [executePlan_none env plan h]
  dsimp only
  split
  · exact ⟨[Event.saveDraft], rfl, Or.inr rfl⟩
  · exact ⟨[], by simp, Or.inl rfl⟩

/-- The `sent` events of the per-operation trace list the operations in
delivery order. -/
theorem filterMap_sentOf_flatMap (env : ExecEnv) :
    ∀ idxs : List Nat, (idxs.flatMap (opTrace env)).filterMap sentOf = idxs
  | [] => rfl
  | i :: rest => by
    rw [List.flatMap_cons, List.filterMap_append]
    rw [filterMap_sentOf_flatMap env rest]
    rfl

/-- The window checks succeed exactly when every operation's window is
non-negative, ordered, and within the asset duration. -/
theorem checkWindows_ok_iff (d : Int) :
    ∀ (start : Nat) (ops : List EditOperation),
      (checkWindows d (List.enumFrom start ops) = .ok () ↔ ∀ op ∈ ops, opWellFormed d op)
  | _, [] => by simp [checkWindows]
  | start, op :: rest => by
    rw [show List.enumFrom start (op :: rest) = (start, op) :: List.enumFrom (start + 1) rest
        from rfl]
    rw [checkWindows]
    by_cases hneg : op.window.tEnd < op.window.tStart
    · rw [if_pos hneg]
      constructor
      · intro hok; exact Except.noConfusion hok
      · intro hall
        have := (hall op (List.mem_cons_self op rest)).2.1
        omega
    · rw [if_neg hneg]
      by_cases hoor : op.window.tStart < 0 ∨ d < op.window.tEnd
      · rw [if_pos (by simpa using hoor)]
        constructor
        · intro hok; exact Except.noConfusion hok
        · intro hall
          have h1 := (hall op (List.mem_cons_self op rest)).1
          have h2 := (hall op (List.mem_cons_self op rest)).2.2
          omega
      · rw [if_neg (by simpa using hoor)]
        rw [checkWindows_ok_iff d (start + 1) rest]
        constructor
        · intro hrest op' hop'
          rcases List.mem_cons.mp hop' with rfl | hmem
          · exact ⟨by omega, by omega, by omega⟩
          · exact hrest op' hmem
        · intro hall op' hop'
          exact hall op' (List.mem_cons_of_mem op hop')

/-! ## Front-end theorems -/

/-- Every JavaScript string includes the empty string. -/
theorem includes_nil (s : JSString) : includes s [] = true := by
  unfold includes
  rw [List.any_eq_true]
  refine ⟨0, List.mem_range.mpr (Nat.succ_pos _), ?_⟩
  simp [List.isPrefixOf_iff_prefix]

/-- C9: the dashboard search keeps exactly the projects whose name contains
the query as a case-insensitive substring, preserves their original order
(the result is a sublist of the project list), and an empty query returns the
full project list unchanged. -/
theorem filteredProjects_spec (projects : List Project) (searchQuery : JSString) :
    (∀ p, p ∈ filteredProjects projects searchQuery ↔
        p ∈ projects ∧ includes (toLowerCase p.name) (toLowerCase searchQuery) = true) ∧
    List.Sublist (filteredProjects projects searchQuery) projects ∧
    filteredProjects projects [] = projects := by
  refine ⟨?_, List.filter_sublist projects, ?_⟩
  · intro p
    exact List.mem_filter
  · unfold filteredProjects
    apply List.filter_eq_self.mpr
    intro p _
    exact includes_nil (toLowerCase p.name)

/-- C8: the upload page accepts a file exactly when its MIME type starts with
`image/` or `video/`, setting the selected file and the object preview URL;
any other file leaves both state cells unchanged. -/
theorem handleFile_spec (createObjectURL : FileDesc → JSString) (file : FileDesc)
    (st : UploadState) :
    ((startsWith file.type "image/".toList || startsWith file.type "video/".toList) = true →
      handleFile createObjectURL file st
        = ⟨some file, some (createObjectURL file)⟩) ∧
    ((startsWith file.type "image/".toList || startsWith file.type "video/".toList) = false →
      handleFile createObjectURL file st = st) := by
  constructor
  · intro h
    unfold handleFile
    split
    · rfl
    · simp_all
  · intro h
    unfold handleFile
    split
    · simp_all
    · rfl

/-- A stand-in for `URL.createObjectURL`. -/
def blobUrl (f : FileDesc) : JSString := "blob:".toList ++ f.name

/-- A PNG image file, accepted by the upload page. -/
def pngFile : FileDesc := ⟨"photo.png".toList, "image/png".toList, 1024⟩

/-- A PDF file, rejected by the upload page. -/
def pdfFile : FileDesc := ⟨"doc.pdf".toList, "application/pdf".toList, 2048⟩

/-- The initial state of the upload page. -/
def emptyUpload : UploadState := ⟨none, none⟩

/-- Witness for C8: an image file is accepted and stored with its preview
URL, while a PDF leaves the state untouched. -/
theorem handleFile_spec_witness :
    handleFile blobUrl pngFile emptyUpload = ⟨some pngFile, some (blobUrl pngFile)⟩ ∧
    handleFile blobUrl pdfFile emptyUpload = emptyUpload :=
  ⟨(handleFile_spec blobUrl pngFile emptyUpload).1 (by decide),
   (handleFile_spec blobUrl pdfFile emptyUpload).2 (by decide)⟩

/-- C10: submitting an empty or whitespace-only message leaves the editor
state unchanged; a non-empty message appends exactly the user message and the
immediate assistant reply to the history — leaving all prior entries in place
— and clears the input. -/
theorem handleSendMessage_spec (st : EditorState) :
    (trim st.message = [] → handleSendMessage st = st) ∧
    (trim st.message ≠ [] →
      (handleSendMessage st).chatHistory
        = st.chatHistory
            ++ [⟨MsgType.user, st.message⟩, ⟨MsgType.assistant, processingReply⟩] ∧
      (handleSendMessage st).message = [] ∧
      (handleSendMessage st).chatHistory.take st.chatHistory.length = st.chatHistory) := by
  constructor
  · intro h
    simp [handleSendMessage, h]
  · intro h
    have hne : (trim st.message).isEmpty = false := by
      cases htm : trim st.message with
      | nil => exact absurd htm h
      | cons a l => rfl
    refine ⟨?_, ?_, ?_⟩ <;> simp [handleSendMessage, hne, List.take_left]

/-- The initial chat history of the editor page. -/
def chatStart : List ChatMsg :=
  [⟨MsgType.system,
    ("Hi! I\x27m your AI editing assistant."
      ++ " Tell me what you\x27d like to do with your image!").toList⟩]

/-- An editor state holding a typed, non-empty message. -/
def editorSt : EditorState := ⟨"Make it brighter".toList, chatStart, []⟩

/-- An editor state holding a whitespace-only message. -/
def editorWsSt : EditorState := ⟨"   ".toList, chatStart, []⟩

/-- Witness for C10: a whitespace-only submission changes nothing; submitting
a suggestion appends the user message and the assistant reply and clears the
input. -/
theorem handleSendMessage_spec_witness :
    handleSendMessage editorWsSt = editorWsSt ∧
    (handleSendMessage editorSt).chatHistory
      = chatStart ++ [⟨MsgType.user, "Make it brighter".toList⟩,
                      ⟨MsgType.assistant, processingReply⟩] ∧
    (handleSendMessage editorSt).message = [] :=
  ⟨(handleSendMessage_spec editorWsSt).1 (by decide),
   ((handleSendMessage_spec editorSt).2 (by decide)).1,
   ((handleSendMessage_spec editorSt).2 (by decide)).2.1⟩

/-! ## Pipeline claim theorems -/

/-- C1: without cancellation, `saveDraft` appears in the trace exactly when
every video-cut operation's recorded status is `acknowledged` (so failures of
overlay operations never block the save), it appears at most once, and a
failed video-cut skips `saveDraft` and terminates the session with
`PlanExecutionFailed`. -/
theorem saveDraft_iff_cuts_acknowledged (env : ExecEnv) (plan : List EditOperation)
    (h : env.cancelAt = none) :
    (Event.saveDraft ∈ (executePlan env plan).trace ↔
      ∀ p ∈ (executePlan env plan).statuses,
        p.1 ∈ cutIdxs plan → p.2 = Status.acknowledged) ∧
    (executePlan env plan).trace.count Event.saveDraft ≤ 1 ∧
    ((∃ p ∈ (executePlan env plan).statuses, p.1 ∈ cutIdxs plan ∧ p.2 = Status.failed) →
      (executePlan env plan).outcome
        = Outcome.planExecutionFailed
            (failedIn (cutIdxs plan) (executePlan env plan).statuses) ∧
      Event.saveDraft ∉ (executePlan env plan).trace) := by
  rw [executePlan_none env plan h]
  dsimp only
  by_cases hf :
      failedIn (cutIdxs plan) ((execOrder plan).map fun i => (i, opStatus env i)) = []
  · rw [if_pos (by simpa [List.isEmpty_iff] using hf)]
    refine ⟨?_, ?_, ?_⟩
    · apply iff_of_true
      · exact List.mem_append.mpr (Or.inr (List.mem_singleton.mpr rfl))
      · exact (allAcked_iff_failedIn_nil env plan).mpr hf
    · rw [List.count_append]
      have h0 : ((execOrder plan).flatMap (opTrace env)).count Event.saveDraft = 0 :=
        List.count_eq_zero.mpr (saveDraft_not_mem_flatMap env (execOrder plan))
      simp [h0]
    · rintro ⟨p, hp, h1, h2⟩
      exact absurd hf (failedIn_ne_nil _ _ p hp h1 h2)
  · rw [if_neg (by simpa [List.isEmpty_iff] using hf)]
    refine ⟨?_, ?_, ?_⟩
    · apply iff_of_false
      · exact saveDraft_not_mem_flatMap env (execOrder plan)
      · intro hall
        exact hf ((allAcked_iff_failedIn_nil env plan).mp hall)
    · have h0 : ((execOrder plan).flatMap (opTrace env)).count Event.saveDraft = 0 :=
        List.count_eq_zero.mpr (saveDraft_not_mem_flatMap env (execOrder plan))
      simp [h0]
    · intro _
      exact ⟨rfl, saveDraft_not_mem_flatMap env (execOrder plan)⟩

/-- The spec's concrete scenario: two cuts and one text overlay on a
120-second asset. -/
def planSample : List EditOperation :=
  [.videoCut ⟨0, 30⟩, .videoCut ⟨60, 90⟩, .textOverlay "Hi" ⟨2, 5⟩]

/-- A server that acknowledges every call at the first attempt. -/
def envOk : ExecEnv := ⟨fun _ _ => .acknowledged, 3, none⟩

/-- A server that rejects the second cut and acknowledges everything else. -/
def envCutRejected : ExecEnv :=
  ⟨fun i _ => if i = 1 then .rejected else .acknowledged, 3, none⟩

/-- Witness for C1: with an all-acknowledging server the sample plan is
saved; when the second cut is rejected the session ends in
`PlanExecutionFailed` and `saveDraft` is skipped. -/
theorem saveDraft_iff_cuts_acknowledged_witness :
    Event.saveDraft ∈ (executePlan envOk planSample).trace ∧
    (executePlan envCutRejected planSample).outcome
      = Outcome.planExecutionFailed
          (failedIn (cutIdxs planSample) (executePlan envCutRejected planSample).statuses) ∧
    Event.saveDraft ∉ (executePlan envCutRejected planSample).trace :=
  ⟨(saveDraft_iff_cuts_acknowledged envOk planSample rfl).1.mpr (by decide),
   ((saveDraft_iff_cuts_acknowledged envCutRejected planSample rfl).2.2 (by decide)).1,
   ((saveDraft_iff_cuts_acknowledged envCutRejected planSample rfl).2.2 (by decide)).2⟩

/-- C2: without cancellation, the `sent` events follow exactly the plan's
video-cut order and then the overlays; an earlier cut's terminal event always
precedes a later cut's `sent` event; and every cut's terminal event precedes
every overlay's `sent` event. -/
theorem cuts_ordered_before_overlays (env : ExecEnv) (plan : List EditOperation)
    (h : env.cancelAt = none) :
    ((executePlan env plan).trace.filterMap sentOf = cutIdxs plan ++ overlayIdxs plan) ∧
    (∀ (l1 : List Nat) (i : Nat) (l2 : List Nat) (j : Nat) (l3 : List Nat),
      cutIdxs plan = l1 ++ i :: (l2 ++ j :: l3) →
      precedes (Event.done i (opStatus env i)) (Event.sent j) (executePlan env plan).trace) ∧
    (∀ i o, i ∈ cutIdxs plan → o ∈ overlayIdxs plan →
      precedes (Event.done i (opStatus env i)) (Event.sent o)
        (executePlan env plan).trace) := by
  obtain ⟨tail, htr, htail⟩ := executePlan_trace_decomp env plan h
  refine ⟨?_, ?_, ?_⟩
  · rw [htr, List.filterMap_append, filterMap_sentOf_flatMap]
    rcases htail with rfl | rfl <;> simp [execOrder, sentOf]
  · intro l1 i l2 j l3 hdec
    rw [htr]
    apply precedes_append_right
    rw [execOrder, hdec]
    refine ⟨l1.flatMap (opTrace env) ++ [Event.sent i],
            l2.flatMap (opTrace env),
            Event.done j (opStatus env j)
              :: ((l3.flatMap (opTrace env)) ++ (overlayIdxs plan).flatMap (opTrace env)), ?_⟩
    simp [List.flatMap_append, opTrace, List.append_assoc]
  · intro i o hi ho
    obtain ⟨s, t, hst⟩ := List.append_of_mem hi
    obtain ⟨u, v, huv⟩ := List.append_of_mem ho
    rw [htr]
    apply precedes_append_right
    rw [execOrder, hst, huv]
    refine ⟨s.flatMap (opTrace env) ++ [Event.sent i],
            t.flatMap (opTrace env) ++ u.flatMap (opTrace env),
            Event.done o (opStatus env o) :: v.flatMap (opTrace env), ?_⟩
    simp [List.flatMap_append, opTrace, List.append_assoc]

/-- Witness for C2: on the sample plan the calls go out as cut 0, cut 1,
overlay 2, and cut 0 terminates before cut 1 is sent, which terminates before
the overlay is sent. -/
theorem cuts_ordered_before_overlays_witness :
    ((executePlan envOk planSample).trace.filterMap sentOf
      = cutIdxs planSample ++ overlayIdxs planSample) ∧
    precedes (Event.done 0 (opStatus envOk 0)) (Event.sent 1)
      (executePlan envOk planSample).trace ∧
    precedes (Event.done 1 (opStatus envOk 1)) (Event.sent 2)
      (executePlan envOk planSample).trace :=
  ⟨(cuts_ordered_before_overlays envOk planSample rfl).1,
   (cuts_ordered_before_overlays envOk planSample rfl).2.1 [] 0 [] 1 [] (by decide),
   (cuts_ordered_before_overlays envOk planSample rfl).2.2 1 2 (by decide) (by decide)⟩

/-- C7: when the cancellation signal arrives after `n` operations have
terminated and before the plan is exhausted, the session outcome is
`cancelled`, no `saveDraft` is issued, the first `n` operations keep their
terminal statuses while all later ones stay `pending`, and the trace contains
exactly the completed calls — each issued call runs to its terminal event and
no new call is started. -/
theorem cancellation_preserves_statuses (env : ExecEnv) (plan : List EditOperation)
    (n : Nat) (h : env.cancelAt = some n) (hn : n < (execOrder plan).length) :
    (executePlan env plan).outcome = Outcome.cancelled ∧
    Event.saveDraft ∉ (executePlan env plan).trace ∧
    (executePlan env plan).statuses
      = ((execOrder plan).take n).map (fun i => (i, opStatus env i))
          ++ ((execOrder plan).drop n).map (fun j => (j, Status.pending)) ∧
    (executePlan env plan).trace = ((execOrder plan).take n).flatMap (opTrace env) := by
  have hrun := runOps_cancel env n h (execOrder plan) 0 (Nat.zero_le n)
  have hmin : min (n - 0) (execOrder plan).length = n := by omega
  rw [hmin] at hrun
  have hterm : isCancelled env.cancelAt (0 + n) = true := by
    rw [h]; simp [isCancelled]
  unfold executePlan
  rw [hrun]
  dsimp only
  rw [hterm]
  rw [if_pos rfl]
  simp only [Nat.sub_zero]
  exact ⟨by trivial, saveDraft_not_mem_flatMap env _, by trivial, by trivial⟩

/-- A server that acknowledges everything but whose orchestration is
cancelled after the first operation terminates. -/
def envCancelled : ExecEnv := ⟨fun _ _ => .acknowledged, 3, some 1⟩

/-- Witness for C7, at the spec's concrete scenario: cancelling after the
first cut is acknowledged and before the second is sent leaves one operation
`acknowledged`, the rest `pending`, outcome `cancelled`, and no further
calls. -/
theorem cancellation_preserves_statuses_witness :
    (executePlan envCancelled planSample).statuses
      = [(0, Status.acknowledged), (1, Status.pending), (2, Status.pending)] ∧
    ((executePlan envCancelled planSample).outcome = Outcome.cancelled ∧
      Event.saveDraft ∉ (executePlan envCancelled planSample).trace ∧
      (executePlan envCancelled planSample).statuses
        = ((execOrder planSample).take 1).map (fun i => (i, opStatus envCancelled i))
            ++ ((execOrder planSample).drop 1).map (fun j => (j, Status.pending)) ∧
      (executePlan envCancelled planSample).trace
        = ((execOrder planSample).take 1).flatMap (opTrace envCancelled)) :=
  ⟨by decide,
   cancellation_preserves_statuses envCancelled planSample 1 rfl (by decide)⟩

/-- C4: validation succeeds exactly on plans satisfying the EditingPlan
invariants; a plan violating them is rejected with some named `PlanInvalid`
before execution, and PlanExecutor only ever receives plans satisfying the
invariants. -/
theorem validation_gates_executor (env : ExecEnv) (asset : VideoAsset)
    (plan : List EditOperation) :
    (validatePlan asset plan = Except.ok () ↔ planWellFormed asset plan) ∧
    (¬ planWellFormed asset plan →
      ∃ e, orchestrate env asset plan = OrchResult.planInvalid e) ∧
    (∀ r, orchestrate env asset plan = OrchResult.executed r →
      planWellFormed asset plan) := by
  have hiff : validatePlan asset plan = Except.ok () ↔ planWellFormed asset plan := by
    unfold validatePlan planWellFormed
    by_cases hcut : cutIdxs plan = []
    · rw [if_pos (by simpa [List.isEmpty_iff] using hcut)]
      constructor
      · intro hok; exact Except.noConfusion hok
      · intro ⟨hne, _⟩; exact absurd hcut hne
    · rw [if_neg (by simpa [List.isEmpty_iff] using hcut)]
      rw [show plan.enum = List.enumFrom 0 plan from rfl]
      rw [checkWindows_ok_iff asset.duration 0 plan]
      constructor
      · intro hops; exact ⟨hcut, hops⟩
      · intro ⟨_, hops⟩; exact hops
  refine ⟨hiff, ?_, ?_⟩
  · intro hnwf
    unfold orchestrate generate
    cases hval : validatePlan asset plan with
    | ok u =>
        cases u
        exact absurd (hiff.mp hval) hnwf
    | error e => exact ⟨e, rfl⟩
  · intro r hr
    unfold orchestrate generate at hr
    cases hval : validatePlan asset plan with
    | ok u => cases u; exact hiff.mp hval
    | error e => rw [hval] at hr; exact OrchResult.noConfusion hr

/-- The asset of the spec's validation scenario: a 120-second video. -/
def assetSample : VideoAsset := ⟨"video.mp4", 120, 1920, 1080⟩

/-- A plan whose only cut runs past the asset duration. -/
def planOutOfRange : List EditOperation := [.videoCut ⟨0, 130⟩]

/-- Witness for C4: the out-of-range plan is rejected with a `PlanInvalid`
before PlanExecutor ever sees it, and the valid sample plan passes
validation. -/
theorem validation_gates_executor_witness :
    (∃ e, orchestrate envOk assetSample planOutOfRange = OrchResult.planInvalid e) ∧
    validatePlan assetSample planSample = Except.ok () :=
  ⟨(validation_gates_executor envOk assetSample planOutOfRange).2.1 (by decide),
   (validation_gates_executor envOk assetSample planSample).1.mpr (by decide)⟩

end Clapperlabs
